import Mathlib

/-!
Verification of the core subsystems of a file-organization utility:
content hashing (utils/hashing.py), the scan cache (cache.py, database.py),
the scanner variants (scanner.py, scanner_cached.py, scanner_production.py,
core/scanner_v2.py), duplicate resolution (duplicates.py) and the
operation log with undo (operation_log.py).

Timestamps are modelled as rationals (Python floats of seconds), file
contents as lists of byte values, paths as strings, and the digest
function as an arbitrary parameter `H` so that theorems speak about which
bytes are fed into the digest rather than about SHA internals.
-/

namespace FileOrg

/-! ### Decimal rendering of naturals

Python renders the collision counter and the file size with `str(n)`;
the Lean-side counterpart is `Nat.repr`.  We prove `Nat.repr` injective
(via a decoding left inverse) and that it is never empty; both facts are
needed to show the name-collision loop of `move_duplicates` always finds
a fresh destination.
-/

/-- Decode a list of decimal digit characters back into a natural. -/
def decodeDigits (l : List Char) : Nat :=
  l.foldl (fun acc c => acc * 10 + (c.toNat - 48)) 0

theorem digitChar_toNat_sub (d : Nat) (h : d < 10) :
    (Nat.digitChar d).toNat - 48 = d := by
  interval_cases d <;> rfl

theorem foldl_toDigitsCore (fuel : Nat) :
    ∀ (n : Nat) (ds : List Char), n < 10 ^ fuel →
      (Nat.toDigitsCore 10 fuel n ds).foldl (fun acc c => acc * 10 + (c.toNat - 48)) 0 =
        ds.foldl (fun acc c => acc * 10 + (c.toNat - 48)) n := by
  induction fuel with
  | zero =>
    intro n ds hn
    have hn0 : n = 0 := Nat.lt_one_iff.mp (by simpa using hn)
    subst hn0
    simp [Nat.toDigitsCore]
  | succ fuel ih =>
    intro n ds hn
    by_cases hdiv : n / 10 = 0
    · have hnlt : n < 10 := by
        rcases Nat.lt_or_ge n 10 with h | h
        · exact h
        · exact absurd hdiv (by
            have : 1 ≤ n / 10 := Nat.one_le_div_iff (by norm_num) |>.mpr h
            omega)
      have hmod : n % 10 = n := Nat.mod_eq_of_lt hnlt
      simp only [Nat.toDigitsCore, hdiv, if_true, List.foldl_cons]
      rw [hmod, digitChar_toNat_sub n hnlt]
      simp
    · have hlt : n / 10 < 10 ^ fuel := by
        rw [Nat.div_lt_iff_lt_mul (by norm_num : 0 < 10)]
        calc n < 10 ^ (fuel + 1) := hn
        _ = 10 ^ fuel * 10 := by rw [Nat.pow_succ]
      simp only [Nat.toDigitsCore, hdiv, if_false]
      rw [ih (n / 10) (Nat.digitChar (n % 10) :: ds) hlt]
      simp only [List.foldl_cons]
      rw [digitChar_toNat_sub (n % 10) (Nat.mod_lt n (by norm_num))]
      congr 1
      omega

theorem decode_repr (n : Nat) : decodeDigits (Nat.repr n).data = n := by
  have hbig : n < 10 ^ (n + 1) := by
    calc n < 2 ^ n := Nat.lt_two_pow n
    _ ≤ 10 ^ n := Nat.pow_le_pow_left (by norm_num) n
    _ ≤ 10 ^ (n + 1) := Nat.pow_le_pow_right (by norm_num) (Nat.le_succ n)
  have : (Nat.repr n).data = Nat.toDigitsCore 10 (n + 1) n [] := rfl
  rw [decodeDigits, this, foldl_toDigitsCore (n + 1) n [] hbig]
  rfl

theorem repr_injective : Function.Injective Nat.repr := by
  intro a b h
  have := congrArg (fun s => decodeDigits s.data) h
  simpa [decode_repr] using this

theorem toDigitsCore_length_ge (fuel : Nat) :
    ∀ (n : Nat) (ds : List Char), ds.length ≤ (Nat.toDigitsCore 10 fuel n ds).length := by
  induction fuel with
  | zero => intro n ds; simp [Nat.toDigitsCore]
  | succ fuel ih =>
    intro n ds
    by_cases hdiv : n / 10 = 0
    · simp [Nat.toDigitsCore, hdiv]
    · simp only [Nat.toDigitsCore, hdiv, if_false]
      calc ds.length ≤ (Nat.digitChar (n % 10) :: ds).length := by simp
      _ ≤ _ := ih (n / 10) (Nat.digitChar (n % 10) :: ds)

theorem repr_length_pos (n : Nat) : 0 < (Nat.repr n).length := by
  show 0 < (Nat.toDigitsCore 10 (n + 1) n []).length
  by_cases hdiv : n / 10 = 0
  · simp [Nat.toDigitsCore, hdiv]
  · simp only [Nat.toDigitsCore, hdiv, if_false]
    calc 0 < (Nat.digitChar (n % 10) :: []).length := by simp
    _ ≤ _ := toDigitsCore_length_ge n (n / 10) (Nat.digitChar (n % 10) :: [])

/-! ### Hasher (utils/hashing.py)

A file's bytes are a `List Nat`; the digest function `H` is an arbitrary
parameter.  `calculate_hash` models the chunked read loop (64 KiB chunks
accumulated into the digest); `quick_hash` models the size / first-chunk /
last-chunk digest for large files.
-/

def CHUNK_SIZE : Nat := 65536

def QUICK_HASH_SIZE : Nat := 1048576

/-- Byte encoding of an ASCII string (Python `str.encode()`). -/
def strBytes (s : String) : List Nat := s.data.map Char.toNat

/-- The chunked read loop: successive `chunkSize`-byte chunks of the file.
`fuel` bounds the recursion; callers pass `content.length`, which always
suffices when `0 < chunkSize`. -/
def readChunksAux (chunkSize : Nat) : Nat → List Nat → List (List Nat)
  | _, [] => []
  | 0, _ :: _ => []
  | fuel + 1, c :: rest =>
      ((c :: rest).take chunkSize) :: readChunksAux chunkSize fuel ((c :: rest).drop chunkSize)

def readChunks (chunkSize : Nat) (content : List Nat) : List (List Nat) :=
  readChunksAux chunkSize content.length content

/-- `calculate_hash`: stream the file in chunks through the digest. -/
def calculate_hash (H : List Nat → String) (content : List Nat)
    (chunkSize : Nat := CHUNK_SIZE) : String :=
  H (readChunks chunkSize content).flatten

/-- `quick_hash`: full hash for files at or below `size` bytes; otherwise
digest of `str(file_size)`, the first `size / 2` bytes, and the last
`size / 2` bytes obtained by a seek from the end of the file. -/
def quick_hash (H : List Nat → String) (content : List Nat)
    (size : Nat := QUICK_HASH_SIZE) : String :=
  let file_size := content.length
  if file_size ≤ size then
    calculate_hash H content
  else
    let chunk_size := size / 2
    let first_chunk := content.take chunk_size
    let last_chunk := (content.drop (file_size - chunk_size)).take chunk_size
    H (strBytes (Nat.repr file_size) ++ first_chunk ++ last_chunk)

theorem readChunksAux_join (chunkSize : Nat) (hcs : 0 < chunkSize) :
    ∀ (fuel : Nat) (content : List Nat), content.length ≤ fuel →
      (readChunksAux chunkSize fuel content).flatten = content := by
  intro fuel
  induction fuel with
  | zero =>
    intro content hlen
    match content with
    | [] => rfl
    | c :: rest => simp at hlen
  | succ fuel ih =>
    intro content hlen
    match content with
    | [] => rfl
    | c :: rest =>
      simp only [readChunksAux, List.flatten_cons]
      rw [ih ((c :: rest).drop chunkSize) (by simp at hlen ⊢; omega)]
      exact List.take_append_drop chunkSize (c :: rest)

theorem calculate_hash_eq (H : List Nat → String) (content : List Nat)
    (chunkSize : Nat) (hcs : 0 < chunkSize) :
    calculate_hash H content chunkSize = H content := by
  unfold calculate_hash readChunks
  rw [readChunksAux_join chunkSize hcs content.length content (Nat.le_refl _)]

/-- A sample digest used to instantiate hash-parametric theorems. -/
def lenHash : List Nat → String := fun l => Nat.repr l.length

/-- C7: for every readable file, if the file's size is at or below the
quick-hash size threshold the quick hash equals the full hash of the file
(the digest of the whole content); above the threshold the quick hash is
the digest of, in order, the file's byte length rendered as a string, the
first half-threshold bytes, and the last half-threshold bytes read via a
seek from the file's end. -/
theorem C7_quick_hash (H : List Nat → String) (content : List Nat) (size : Nat) :
    (content.length ≤ size →
      quick_hash H content size = calculate_hash H content ∧
      calculate_hash H content = H content) ∧
    (size < content.length →
      quick_hash H content size =
        H (strBytes (Nat.repr content.length) ++ content.take (size / 2) ++
            content.drop (content.length - size / 2))) := by
  constructor
  · intro h
    refine ⟨?_, calculate_hash_eq H content CHUNK_SIZE (by norm_num [CHUNK_SIZE])⟩
    unfold quick_hash
    rw [if_pos h]
  · intro h
    unfold quick_hash
    rw [if_neg (not_le.mpr h)]
    have hd : (content.drop (content.length - size / 2)).take (size / 2) =
        content.drop (content.length - size / 2) := by
      apply List.take_of_length_le
      rw [List.length_drop]
      have : size / 2 ≤ size := Nat.div_le_self size 2
      omega
    show H _ = H _
    rw [hd]

theorem C7_quick_hash_witness :
    ((4 : Nat) < 5 ∧
      quick_hash lenHash [1, 2, 3, 4, 5] 4 =
        lenHash (strBytes (Nat.repr 5) ++ [1, 2] ++ [4, 5])) ∧
    ((3 : Nat) ≤ 4 ∧ quick_hash lenHash [1, 2, 3] 4 = calculate_hash lenHash [1, 2, 3]) :=
  ⟨⟨by decide, ((C7_quick_hash lenHash [1, 2, 3, 4, 5] 4).2 (by decide)).trans rfl⟩,
   ⟨by decide, ((C7_quick_hash lenHash [1, 2, 3] 4).1 (by decide)).1⟩⟩

/-! ### Scan cache validity (cache.py `should_use_cache`, scanner_v2.py cache check)

The simple JSON cache stores per-file records; `should_use_cache` compares
the current stat mtime to the stored one with a strict 1-second tolerance.
`ScannerV2.scan` instead consults the SQLite cache and reuses an entry only
on exact mtime equality (`cached['modified_time'] == stat_info.st_mtime`).
Modification times are rationals (Python float seconds).
-/

structure CacheFileInfo where
  path : String
  modified : ℚ
  fileHash : String
deriving DecidableEq

/-- cache.py `get_file_from_cache`: linear scan of the cached file list. -/
def get_file_from_cache (files : List CacheFileInfo) (path : String) :
    Option CacheFileInfo :=
  files.find? (fun fi => decide (fi.path = path))

/-- cache.py `should_use_cache`: valid iff the entry is present and the
mtime drift is strictly below 1 second. -/
def should_use_cache (files : List CacheFileInfo) (path : String)
    (currentMtime : ℚ) : Bool :=
  match get_file_from_cache files path with
  | none => false
  | some info => decide (|currentMtime - info.modified| < 1)

structure V2CacheEntry where
  modified_time : ℚ
  file_size : Nat
  file_hash : String
deriving DecidableEq

/-- scanner_v2.py line 133: `if cached and cached['modified_time'] == stat_info.st_mtime`. -/
def scannerV2CacheHit (cached : Option V2CacheEntry) (currentMtime : ℚ) : Bool :=
  match cached with
  | none => false
  | some c => decide (c.modified_time = currentMtime)

/-- C1 (amended): the simple cache's per-file validity check
(`should_use_cache`) reuses the cached fingerprint iff the current
modification time is within the strict 1-second tolerance of the stored
one; but the ScannerV2 variant reuses a cached entry iff the modification
times are exactly equal, so the tolerance does not hold for every scanner
variant that consults a per-file cache. -/
theorem C1_cache_tolerance (files : List CacheFileInfo) (path : String)
    (info : CacheFileInfo) (cur : ℚ)
    (hfound : get_file_from_cache files path = some info) :
    (should_use_cache files path cur = true ↔ |cur - info.modified| < 1) ∧
    (∀ e : V2CacheEntry, scannerV2CacheHit (some e) cur = true ↔ e.modified_time = cur) := by
  constructor
  · unfold should_use_cache
    rw [hfound]
    simp
  · intro e
    simp [scannerV2CacheHit]

theorem C1_cache_tolerance_witness :
    get_file_from_cache [⟨"a.txt", 5, "h"⟩] "a.txt" = some ⟨"a.txt", 5, "h"⟩ ∧
    (should_use_cache [⟨"a.txt", 5, "h"⟩] "a.txt" (11/2) = true ↔
      |(11/2 : ℚ) - 5| < 1) :=
  ⟨rfl, (C1_cache_tolerance [⟨"a.txt", 5, "h"⟩] "a.txt" ⟨"a.txt", 5, "h"⟩ (11/2) rfl).1⟩

/-- C1 counterexample: a current mtime drifting 1/2 second from the stored
one is within the claimed tolerance (so the claim requires a cache hit in
every per-file-cache scanner variant), yet ScannerV2's check reports a
miss, which triggers rehashing. -/
theorem C1_counterexample :
    |((1 : ℚ) / 2) - 0| < 1 ∧
    scannerV2CacheHit (some ⟨0, 1, "h"⟩) (1 / 2) = false := by
  constructor
  · rw [sub_zero]
    rw [abs_of_pos (by norm_num : (0 : ℚ) < 1 / 2)]
    norm_num
  · simp only [scannerV2CacheHit, decide_eq_false_iff_not]
    norm_num

/-! ### Cache corruption handling (cache.py `ScanCache.get`)

`ScanCache.get` reads the persisted JSON; `json.JSONDecodeError` and
`IOError` are both caught and turned into `None`.  The persisted state of
one cache file is modelled as parseable data, malformed JSON, or a read
error; a missing cache file is absence from the store.
-/

structure CachedScan where
  directoryField : Option String
  files : List CacheFileInfo
deriving DecidableEq

inductive PersistedCache
  | good (d : CachedScan)
  | corruptJson
  | readError
deriving DecidableEq

/-- cache.py `ScanCache.get`: missing cache file → None; JSON decode error
or IOError → None (swallowed, never re-raised); parsed data must carry a
matching 'directory' key, else None. -/
def cacheGet (store : List (String × PersistedCache)) (directory : String) :
    Option CachedScan :=
  match store.find? (fun e => decide (e.1 = directory)) with
  | none => none
  | some (_, .corruptJson) => none
  | some (_, .readError) => none
  | some (_, .good d) =>
      if d.directoryField = some directory then some d else none

/-- C9: a cache lookup whose persisted data is malformed JSON or hits a read
error returns absent (a miss); dually, any present result was parsed
successfully, so a parse error is never propagated to the caller. -/
theorem C9_cache_corrupt (store : List (String × PersistedCache))
    (directory : String) :
    (∀ key, (store.find? (fun e => decide (e.1 = directory)) = some (key, .corruptJson) ∨
             store.find? (fun e => decide (e.1 = directory)) = some (key, .readError)) →
      cacheGet store directory = none) ∧
    (∀ d, cacheGet store directory = some d →
      ∃ key, store.find? (fun e => decide (e.1 = directory)) = some (key, .good d)) := by
  constructor
  · intro key h
    unfold cacheGet
    rcases h with h | h <;> rw [h]
  · intro d hd
    unfold cacheGet at hd
    cases hfind : store.find? (fun e => decide (e.1 = directory)) with
    | none => rw [hfind] at hd; exact absurd hd (by simp)
    | some e =>
      rw [hfind] at hd
      obtain ⟨key, st⟩ := e
      cases st with
      | corruptJson => exact absurd hd (by simp)
      | readError => exact absurd hd (by simp)
      | good dat =>
        refine ⟨key, ?_⟩
        dsimp only at hd
        by_cases hdir : dat.directoryField = some directory
        · rw [if_pos hdir] at hd
          have hde := Option.some.inj hd
          rw [hde]
        · rw [if_neg hdir] at hd
          exact absurd hd (by simp)

theorem C9_cache_corrupt_witness :
    ([("root", PersistedCache.corruptJson)].find?
        (fun e => decide (e.1 = "root")) = some ("root", PersistedCache.corruptJson) ∧
      cacheGet [("root", PersistedCache.corruptJson)] "root" = none) :=
  ⟨rfl, (C9_cache_corrupt [("root", PersistedCache.corruptJson)] "root").1 "root" (Or.inl rfl)⟩

/-! ### Zero-byte files and duplicate grouping (scanner variants)

`FileScanner.scan`, `CachedFileScanner.scan` and `ProductionScanner` all
guard hashing with `if stat_info.st_size > 0`, so zero-byte files are never
hashed and never enter `files_by_hash`.  `ScannerV2.scan` has no such
guard: every cache-miss file is queued for hashing.  Duplicate groups are
the hash groups of size ≥ 2, in first-seen key order.
-/

structure ScanFile where
  path : String
  name : String
  size : Nat
  content : List Nat
  modified : ℚ
deriving DecidableEq

/-- `files_by_hash[hash].append(file_info)` on an insertion-ordered
association list of groups. -/
def addToGroups (groups : List (String × List ScanFile)) (h : String)
    (f : ScanFile) : List (String × List ScanFile) :=
  match groups with
  | [] => [(h, [f])]
  | (k, fs) :: rest =>
      if k = h then (k, fs ++ [f]) :: rest else (k, fs) :: addToGroups rest h f

/-- The v1-family hashing loop (scanner.py / scanner_cached.py /
scanner_production.py): hash and group only files with `st_size > 0`. -/
def v1Groups (H : List Nat → String) (files : List ScanFile) :
    List (String × List ScanFile) :=
  files.foldl (fun gs f => if 0 < f.size then addToGroups gs (H f.content) f else gs) []

def v1Duplicates (H : List Nat → String) (files : List ScanFile) :
    List (String × List ScanFile) :=
  (v1Groups H files).filter (fun g => decide (1 < g.2.length))

/-- The ScannerV2 pipeline: every discovered cache-miss file is hashed
(no size guard) and grouped by its hash in phase 4. -/
def v2Groups (H : List Nat → String) (files : List ScanFile) :
    List (String × List ScanFile) :=
  files.foldl (fun gs f => addToGroups gs (H f.content) f) []

def v2Duplicates (H : List Nat → String) (files : List ScanFile) :
    List (String × List ScanFile) :=
  (v2Groups H files).filter (fun g => decide (1 < g.2.length))

theorem addToGroups_mem (gs : List (String × List ScanFile)) (h : String)
    (f f' : ScanFile) (g : String × List ScanFile)
    (hg : g ∈ addToGroups gs h f) (hf : f' ∈ g.2) :
    (∃ g₀ ∈ gs, f' ∈ g₀.2) ∨ f' = f := by
  induction gs with
  | nil =>
    simp only [addToGroups, List.mem_singleton] at hg
    subst hg
    simp at hf
    right; exact hf
  | cons p rest ih =>
    obtain ⟨k, fs⟩ := p
    simp only [addToGroups] at hg
    by_cases hk : k = h
    · rw [if_pos hk] at hg
      rcases List.mem_cons.mp hg with hg | hg
      · subst hg
        simp only [List.mem_append, List.mem_singleton] at hf
        rcases hf with hf | hf
        · exact Or.inl ⟨(k, fs), List.mem_cons_self _ _, hf⟩
        · exact Or.inr hf
      · exact Or.inl ⟨g, List.mem_cons_of_mem _ hg, hf⟩
    · rw [if_neg hk] at hg
      rcases List.mem_cons.mp hg with hg | hg
      · subst hg
        exact Or.inl ⟨(k, fs), List.mem_cons_self _ _, hf⟩
      · rcases ih hg with ⟨g₀, hg₀, hf₀⟩ | hf₀
        · exact Or.inl ⟨g₀, List.mem_cons_of_mem _ hg₀, hf₀⟩
        · exact Or.inr hf₀

theorem v1Groups_sizes (H : List Nat → String) (files : List ScanFile) :
    ∀ gs₀, (∀ g ∈ gs₀, ∀ f ∈ g.2, 0 < f.size) →
      ∀ g ∈ files.foldl
          (fun gs f => if 0 < f.size then addToGroups gs (H f.content) f else gs) gs₀,
        ∀ f ∈ g.2, 0 < f.size := by
  induction files with
  | nil => intro gs₀ hinv g hg f hf; exact hinv g hg f hf
  | cons x xs ih =>
    intro gs₀ hinv g hg f hf
    simp only [List.foldl_cons] at hg
    by_cases hx : 0 < x.size
    · rw [if_pos hx] at hg
      refine ih _ ?_ g hg f hf
      intro g' hg' f' hf'
      rcases addToGroups_mem gs₀ (H x.content) x f' g' hg' hf' with ⟨g₀, h₀, h₁⟩ | h₁
      · exact hinv g₀ h₀ f' h₁
      · rw [h₁]; exact hx
    · rw [if_neg hx] at hg
      exact ih _ hinv g hg f hf

/-- C3 (amended): in the FileScanner / CachedFileScanner /
ProductionScanner pipelines a zero-size file is never hashed (removing
zero-size files from the input leaves the hash groups unchanged) and never
appears in any duplicate group; ScannerV2 lacks the size guard, and the
counterexample shows zero-byte files forming a ScannerV2 duplicate group. -/
theorem C3_zero_byte (H : List Nat → String) (files : List ScanFile) :
    (∀ g ∈ v1Duplicates H files, ∀ f ∈ g.2, 0 < f.size) ∧
    v1Groups H files = v1Groups H (files.filter (fun f => decide (0 < f.size))) := by
  constructor
  · intro g hg f hf
    have hg' : g ∈ v1Groups H files := List.mem_of_mem_filter hg
    exact v1Groups_sizes H files [] (by simp) g hg' f hf
  · unfold v1Groups
    generalize ([] : List (String × List ScanFile)) = gs₀
    induction files generalizing gs₀ with
    | nil => rfl
    | cons x xs ih =>
      rw [List.foldl_cons, List.filter_cons]
      by_cases hx : 0 < x.size
      · rw [if_pos hx, if_pos (show decide (0 < x.size) = true from decide_eq_true hx),
          List.foldl_cons, if_pos hx]
        exact ih _
      · rw [if_neg hx, if_neg (show ¬decide (0 < x.size) = true by simpa using hx)]
        exact ih _

def zf1 : ScanFile := ⟨"/r/a", "a", 0, [], 0⟩

def zf2 : ScanFile := ⟨"/r/b", "b", 0, [], 0⟩

def nzf1 : ScanFile := ⟨"/r/c", "c", 1, [7], 0⟩

def nzf2 : ScanFile := ⟨"/r/d", "d", 1, [7], 0⟩

theorem C3_zero_byte_witness :
    (lenHash [7], [nzf1, nzf2]) ∈ v1Duplicates lenHash [zf1, nzf1, nzf2] ∧
    nzf1 ∈ [nzf1, nzf2] ∧ 0 < nzf1.size :=
  ⟨by decide, by decide,
    (C3_zero_byte lenHash [zf1, nzf1, nzf2]).1 (lenHash [7], [nzf1, nzf2])
      (by decide) nzf1 (by decide)⟩

/-- C3 counterexample: two zero-byte files scanned by ScannerV2 are both
hashed (digest of the empty byte sequence) and land together in a duplicate
group, so a zero-size file does appear in a duplicate group of that
scanner variant. -/
theorem C3_counterexample :
    (lenHash [], [zf1, zf2]) ∈ v2Duplicates lenHash [zf1, zf2] ∧
    zf1 ∈ [zf1, zf2] ∧ zf1.size = 0 := by
  refine ⟨?_, ?_, rfl⟩ <;> decide

/-! ### Duplicate resolution: keep strategies (duplicates.py)

A duplicate-group member carries its path and modification time.  Python
sorts by the ISO `modified` string, whose lexicographic order agrees with
chronological order for the fixed format the scanners emit; the key is
modelled as a natural number.  `sorted(..., key=..., reverse=True)` is a
stable descending sort, modelled by a stable insertion sort.
-/

structure DupFile where
  path : String
  modified : Nat
  size : Nat
deriving DecidableEq

inductive KeepStrategy
  | newest
  | oldest
  | shortest_path
  | first
deriving DecidableEq

def insDesc {α : Type} (key : α → Nat) (a : α) : List α → List α
  | [] => [a]
  | b :: bs => if key b ≤ key a then a :: b :: bs else b :: insDesc key a bs

def sortDesc {α : Type} (key : α → Nat) : List α → List α
  | [] => []
  | a :: l => insDesc key a (sortDesc key l)

def insAsc {α : Type} (key : α → Nat) (a : α) : List α → List α
  | [] => [a]
  | b :: bs => if key a ≤ key b then a :: b :: bs else b :: insAsc key a bs

def sortAsc {α : Type} (key : α → Nat) : List α → List α
  | [] => []
  | a :: l => insAsc key a (sortAsc key l)

/-- duplicates.py lines 88-95 / 150-157: the per-group sort selecting the
survivor as element 0; 'first' applies no sort. -/
def files_sorted (strategy : KeepStrategy) (files : List DupFile) : List DupFile :=
  match strategy with
  | .newest => sortDesc (fun f => f.modified) files
  | .oldest => sortAsc (fun f => f.modified) files
  | .shortest_path => sortAsc (fun f => f.path.length) files
  | .first => files

def keep_file (strategy : KeepStrategy) (files : List DupFile) : Option DupFile :=
  (files_sorted strategy files).head?

def remove_files (strategy : KeepStrategy) (files : List DupFile) : List DupFile :=
  (files_sorted strategy files).tail

theorem sortDesc_head {α : Type} (key : α → Nat) :
    ∀ l : List α, l ≠ [] →
      ∃ pre m post, l = pre ++ m :: post ∧
        (sortDesc key l).head? = some m ∧
        (∀ x ∈ pre, key x < key m) ∧
        (∀ x ∈ l, key x ≤ key m) := by
  intro l
  induction l with
  | nil => intro h; exact absurd rfl h
  | cons a l ih =>
    intro _
    cases l with
    | nil => exact ⟨[], a, [], rfl, rfl, by simp, by simp⟩
    | cons b l' =>
      obtain ⟨pre, m, post, hsplit, hhead, hpre, hall⟩ := ih (by simp)
      obtain ⟨rest, hrest⟩ : ∃ rest, sortDesc key (b :: l') = m :: rest := by
        cases hs : sortDesc key (b :: l') with
        | nil => rw [hs] at hhead; exact absurd hhead (by simp)
        | cons c cs =>
          rw [hs] at hhead
          simp only [List.head?_cons, Option.some.injEq] at hhead
          exact ⟨cs, by rw [hhead]⟩
      by_cases hcmp : key m ≤ key a
      · refine ⟨[], a, b :: l', rfl, ?_, by simp, ?_⟩
        · show (insDesc key a (sortDesc key (b :: l'))).head? = some a
          rw [hrest]
          simp [insDesc, hcmp]
        · intro x hx
          rcases List.mem_cons.mp hx with rfl | hx
          · exact le_refl _
          · exact le_trans (hall x hx) hcmp
      · push_neg at hcmp
        refine ⟨a :: pre, m, post, by rw [hsplit]; rfl, ?_, ?_, ?_⟩
        · show (insDesc key a (sortDesc key (b :: l'))).head? = some m
          rw [hrest]
          simp [insDesc, not_le.mpr hcmp]
        · intro x hx
          rcases List.mem_cons.mp hx with rfl | hx
          · exact hcmp
          · exact hpre x hx
        · intro x hx
          rcases List.mem_cons.mp hx with rfl | hx
          · exact le_of_lt hcmp
          · exact hall x hx

/-- C4: for a non-empty duplicate group under the 'newest' strategy the
chosen survivor is the first-stored entry among those with the maximal
modified time (everything stored before it is strictly older, nothing in
the group is newer); and for every keep strategy, planning is a pure
function of the group, so repeated planning calls on the same input choose
the same survivor. -/
theorem C4_keep_newest (g : List DupFile) (hne : g ≠ []) :
    (∃ pre m post, g = pre ++ m :: post ∧
      keep_file KeepStrategy.newest g = some m ∧
      (∀ x ∈ pre, x.modified < m.modified) ∧
      (∀ x ∈ g, x.modified ≤ m.modified)) ∧
    (∀ (s : KeepStrategy) (g' : List DupFile), g = g' →
      keep_file s g = keep_file s g') := by
  constructor
  · obtain ⟨pre, m, post, h1, h2, h3, h4⟩ := sortDesc_head (fun f => f.modified) g hne
    exact ⟨pre, m, post, h1, h2, h3, h4⟩
  · intro s g' h
    rw [h]

def wgA : DupFile := ⟨"/x/p.txt", 5, 1⟩

def wgB : DupFile := ⟨"/x/q.txt", 9, 1⟩

def wgC : DupFile := ⟨"/x/r.txt", 9, 1⟩

theorem C4_keep_newest_witness :
    ([wgA, wgB, wgC] : List DupFile) ≠ [] ∧
    ((∃ pre m post, [wgA, wgB, wgC] = pre ++ m :: post ∧
        keep_file KeepStrategy.newest [wgA, wgB, wgC] = some m ∧
        (∀ x ∈ pre, x.modified < m.modified) ∧
        (∀ x ∈ [wgA, wgB, wgC], x.modified ≤ m.modified)) ∧
      (∀ (s : KeepStrategy) (g' : List DupFile), [wgA, wgB, wgC] = g' →
        keep_file s [wgA, wgB, wgC] = keep_file s g')) :=
  ⟨by decide, C4_keep_newest [wgA, wgB, wgC] (by decide)⟩

/-! ### Duplicate resolution: moving non-survivors (duplicates.py `move_duplicates`)

The filesystem is a list of existing paths.  `resolveDest` is the
name-collision loop: try target/name first; while the candidate exists,
replace it by target/stem_counter.suffix and increment the counter.  A real
run then performs the move (the destination starts to exist, the source
stops existing); a dry run leaves the filesystem untouched and reports the
operation as simulated.
-/

/-- Python `PurePath(p).name`: the part after the last slash. -/
def basename (p : String) : String :=
  String.mk ((p.data.reverse.takeWhile (fun c => decide (c ≠ '/'))).reverse)

/-- Position of the last dot of a name, if any. -/
def lastDotIdx (ds : List Char) : Option Nat :=
  ((List.range ds.length).filter (fun i => decide (ds.get? i = some '.'))).getLast?

/-- Python `Path.stem` and `Path.suffix` of a file name: split at the last
dot when that dot is neither the leading nor the trailing character. -/
def splitExt (name : String) : String × String :=
  match lastDotIdx name.data with
  | none => (name, "")
  | some i =>
      if 0 < i ∧ i + 1 < name.data.length then
        (String.mk (name.data.take i), String.mk (name.data.drop i))
      else (name, "")

/-- The k-th candidate destination examined by the collision loop. -/
def destCandidate (targetDir name : String) (k : Nat) : String :=
  if k = 0 then targetDir ++ "/" ++ name
  else targetDir ++ "/" ++ (splitExt name).1 ++ "_" ++ Nat.repr k ++ (splitExt name).2

def resolveAux (fs : List String) (targetDir name : String) : Nat → Nat → String
  | k, 0 => destCandidate targetDir name k
  | k, fuel + 1 =>
      if destCandidate targetDir name k ∈ fs then
        resolveAux fs targetDir name (k + 1) fuel
      else destCandidate targetDir name k

/-- The collision loop of duplicates.py lines 164-171; a fuel of
`fs.length + 1` always suffices to reach a free candidate (proved below). -/
def resolveDest (fs : List String) (targetDir name : String) : String :=
  resolveAux fs targetDir name 0 (fs.length + 1)

structure MoveOp where
  source : String
  destination : String
  status : String
deriving DecidableEq

/-- One non-survivor processed by the move loop of `move_duplicates`. -/
def processMover (dryRun : Bool) (targetDir : String) (fs : List String)
    (f : DupFile) : MoveOp × List String :=
  let dest := resolveDest fs targetDir (basename f.path)
  if dryRun then
    ({ source := f.path, destination := dest, status := "simulated" }, fs)
  else
    ({ source := f.path, destination := dest, status := "moved" },
      dest :: fs.filter (fun p => decide (p ≠ f.path)))

def runMovers (dryRun : Bool) (targetDir : String) :
    List String → List DupFile → List MoveOp × List String
  | fs, [] => ([], fs)
  | fs, f :: rest =>
      let step := processMover dryRun targetDir fs f
      let next := runMovers dryRun targetDir step.2 rest
      (step.1 :: next.1, next.2)

/-- The non-survivors of all groups of size at least 2, in stored order. -/
def moversOf (duplicates : List (String × List DupFile))
    (strategy : KeepStrategy) : List DupFile :=
  ((duplicates.filter (fun g => decide (1 < g.2.length))).map
    (fun g => remove_files strategy g.2)).flatten

/-- duplicates.py `move_duplicates` over the abstract filesystem. -/
def move_duplicates (duplicates : List (String × List DupFile))
    (targetDir : String) (strategy : KeepStrategy) (dryRun : Bool)
    (fs : List String) : List MoveOp × List String :=
  runMovers dryRun targetDir fs (moversOf duplicates strategy)

/-- State of the filesystem after a real run over a prefix of the movers. -/
def fsAfter (targetDir : String) (fs : List String) (movers : List DupFile) :
    List String :=
  (runMovers false targetDir fs movers).2

theorem splitExt_join (name : String) :
    (splitExt name).1 ++ (splitExt name).2 = name := by
  rcases hld : lastDotIdx name.data with _ | i
  · simp only [splitExt, hld]
    exact String.append_empty name
  · simp only [splitExt, hld]
    by_cases h : 0 < i ∧ i + 1 < name.data.length
    · rw [if_pos h]
      apply String.ext
      rw [String.data_append]
      show name.data.take i ++ name.data.drop i = name.data
      exact List.take_append_drop i name.data
    · rw [if_neg h]
      exact String.append_empty name

theorem destCandidate_zero_data (t n : String) :
    (destCandidate t n 0).data = t.data ++ "/".data ++ n.data := by
  simp [destCandidate, String.data_append]

theorem destCandidate_succ_data (t n : String) (k : Nat) :
    (destCandidate t n (k + 1)).data =
      t.data ++ "/".data ++ (splitExt n).1.data ++ "_".data ++
        (Nat.repr (k + 1)).data ++ (splitExt n).2.data := by
  simp [destCandidate, String.data_append]

theorem splitExt_length (n : String) :
    (splitExt n).1.data.length + (splitExt n).2.data.length = n.data.length := by
  have h := congrArg String.data (splitExt_join n)
  rw [String.data_append] at h
  rw [← List.length_append, h]

theorem repr_data_length_pos (k : Nat) : 0 < (Nat.repr k).data.length :=
  repr_length_pos k

theorem destCandidate_inj (t n : String) :
    ∀ j k : Nat, destCandidate t n j = destCandidate t n k → j = k := by
  have hlen : ∀ m : Nat,
      (destCandidate t n 0).data.length < (destCandidate t n (m + 1)).data.length := by
    intro m
    rw [destCandidate_zero_data, destCandidate_succ_data]
    simp only [List.length_append]
    have h1 := splitExt_length n
    have h2 := repr_data_length_pos (m + 1)
    omega
  intro j k h
  match j, k with
  | 0, 0 => rfl
  | 0, k + 1 =>
      have hcongr : (destCandidate t n 0).data.length =
          (destCandidate t n (k + 1)).data.length := congrArg (fun s => s.data.length) h
      exact absurd hcongr (by have := hlen k; omega)
  | j + 1, 0 =>
      have hcongr : (destCandidate t n (j + 1)).data.length =
          (destCandidate t n 0).data.length := congrArg (fun s => s.data.length) h
      exact absurd hcongr (by have := hlen j; omega)
  | j + 1, k + 1 =>
      have hd := congrArg String.data h
      rw [destCandidate_succ_data, destCandidate_succ_data] at hd
      have h1 := List.append_cancel_right hd
      have h2 := List.append_cancel_left h1
      have h3 : Nat.repr (j + 1) = Nat.repr (k + 1) := String.ext h2
      have h4 := repr_injective h3
      omega

theorem destCandidate_fresh (t n : String) (fs : List String) :
    ∃ k, k ≤ fs.length ∧ destCandidate t n k ∉ fs := by
  by_contra hcon
  push_neg at hcon
  have hinj : Set.InjOn (destCandidate t n) ↑(Finset.range (fs.length + 1)) := by
    intro a _ b _ hab
    exact destCandidate_inj t n a b hab
  have hcard : ((Finset.range (fs.length + 1)).image (destCandidate t n)).card =
      fs.length + 1 := by
    rw [Finset.card_image_of_injOn hinj, Finset.card_range]
  have hsub : (Finset.range (fs.length + 1)).image (destCandidate t n) ⊆ fs.toFinset := by
    intro x hx
    rw [Finset.mem_image] at hx
    obtain ⟨k, hk, rfl⟩ := hx
    rw [List.mem_toFinset]
    exact hcon k (by rw [Finset.mem_range] at hk; omega)
  have hle := Finset.card_le_card hsub
  have hfin := fs.toFinset_card_le
  omega

theorem resolveAux_spec (fs : List String) (t n : String) :
    ∀ (fuel k : Nat), (∃ j, k ≤ j ∧ j ≤ k + fuel ∧ destCandidate t n j ∉ fs) →
      ∃ j, k ≤ j ∧ resolveAux fs t n k fuel = destCandidate t n j ∧
        destCandidate t n j ∉ fs ∧
        ∀ i, k ≤ i → i < j → destCandidate t n i ∈ fs := by
  intro fuel
  induction fuel with
  | zero =>
    intro k hex
    obtain ⟨j, hj1, hj2, hj3⟩ := hex
    have hjk : j = k := by omega
    subst hjk
    exact ⟨j, le_refl _, rfl, hj3, fun i h1 h2 => by omega⟩
  | succ fuel ih =>
    intro k hex
    by_cases hk : destCandidate t n k ∈ fs
    · have hex' : ∃ j, k + 1 ≤ j ∧ j ≤ (k + 1) + fuel ∧ destCandidate t n j ∉ fs := by
        obtain ⟨j, hj1, hj2, hj3⟩ := hex
        refine ⟨j, ?_, by omega, hj3⟩
        rcases Nat.eq_or_lt_of_le hj1 with rfl | hlt
        · exact absurd hk hj3
        · omega
      obtain ⟨j, hj1, hj2, hj3, hj4⟩ := ih (k + 1) hex'
      refine ⟨j, by omega, ?_, hj3, ?_⟩
      · simp only [resolveAux]
        rw [if_pos hk]
        exact hj2
      · intro i h1 h2
        rcases Nat.eq_or_lt_of_le h1 with rfl | hlt
        · exact hk
        · exact hj4 i (by omega) h2
    · refine ⟨k, le_refl _, ?_, hk, fun i h1 h2 => by omega⟩
      simp only [resolveAux]
      rw [if_neg hk]

theorem resolveDest_spec (fs : List String) (t n : String) :
    ∃ j, resolveDest fs t n = destCandidate t n j ∧
      destCandidate t n j ∉ fs ∧
      ∀ i < j, destCandidate t n i ∈ fs := by
  obtain ⟨kf, hk1, hk2⟩ := destCandidate_fresh t n fs
  obtain ⟨j, _, h2, h3, h4⟩ :=
    resolveAux_spec fs t n (fs.length + 1) 0 ⟨kf, by omega, by omega, hk2⟩
  exact ⟨j, h2, h3, fun i hi => h4 i (by omega) hi⟩

theorem resolveDest_not_mem (fs : List String) (t n : String) :
    resolveDest fs t n ∉ fs := by
  obtain ⟨j, h1, h2, _⟩ := resolveDest_spec fs t n
  rw [h1]
  exact h2

theorem resolveDest_of_free (fs : List String) (t n : String)
    (h : destCandidate t n 0 ∉ fs) : resolveDest fs t n = destCandidate t n 0 := by
  obtain ⟨j, h1, h2, h3⟩ := resolveDest_spec fs t n
  rcases Nat.eq_zero_or_pos j with rfl | hj
  · exact h1
  · exact absurd (h3 0 hj) h

theorem runMovers_real_get (targetDir : String) :
    ∀ (movers : List DupFile) (fs : List String) (idx : Nat) (op : MoveOp),
      (runMovers false targetDir fs movers).1.get? idx = some op →
      ∃ f, movers.get? idx = some f ∧
        op.source = f.path ∧
        op.destination =
          resolveDest (fsAfter targetDir fs (movers.take idx)) targetDir (basename f.path) ∧
        op.status = "moved" := by
  intro movers
  induction movers with
  | nil =>
    intro fs idx op hop
    simp [runMovers] at hop
  | cons f rest ih =>
    intro fs idx op hop
    match idx with
    | 0 =>
      simp only [runMovers, List.get?_cons_zero, Option.some.injEq] at hop
      refine ⟨f, rfl, ?_, ?_, ?_⟩ <;> rw [← hop] <;> rfl
    | idx + 1 =>
      simp only [runMovers, List.get?_cons_succ] at hop
      obtain ⟨g, h1, h2, h3, h4⟩ := ih (processMover false targetDir fs f).2 idx op hop
      exact ⟨g, h1, h2, h3, h4⟩

/-- C8: in a real (non-dry-run) `move_duplicates` run, every emitted
operation moves its non-survivor to a destination that does not exist at
the moment of the move; the destination is the j-th collision candidate
where candidates 0..j-1 all exist at that moment, and when the plain
target-joined base name is free it is chosen with no suffix. -/
theorem C8_move_destination (duplicates : List (String × List DupFile))
    (targetDir : String) (strategy : KeepStrategy) (fs : List String)
    (idx : Nat) (op : MoveOp)
    (hop : (move_duplicates duplicates targetDir strategy false fs).1.get? idx = some op) :
    ∃ f, (moversOf duplicates strategy).get? idx = some f ∧
      op.source = f.path ∧
      op.destination ∉ fsAfter targetDir fs ((moversOf duplicates strategy).take idx) ∧
      (∃ j, op.destination = destCandidate targetDir (basename f.path) j ∧
        ∀ i < j, destCandidate targetDir (basename f.path) i ∈
          fsAfter targetDir fs ((moversOf duplicates strategy).take idx)) ∧
      (destCandidate targetDir (basename f.path) 0 ∉
          fsAfter targetDir fs ((moversOf duplicates strategy).take idx) →
        op.destination = targetDir ++ "/" ++ basename f.path) := by
  obtain ⟨f, h1, h2, h3, _⟩ :=
    runMovers_real_get targetDir (moversOf duplicates strategy) fs idx op hop
  obtain ⟨j, hj1, hj2, hj3⟩ :=
    resolveDest_spec (fsAfter targetDir fs ((moversOf duplicates strategy).take idx))
      targetDir (basename f.path)
  refine ⟨f, h1, h2, ?_, ⟨j, h3.trans hj1, hj3⟩, ?_⟩
  · rw [h3]
    exact resolveDest_not_mem _ _ _
  · intro h0
    rw [h3, resolveDest_of_free _ _ _ h0]
    rfl

def mvK : DupFile := ⟨"k/a.txt", 3, 1⟩

def mv1 : DupFile := ⟨"x/a.txt", 1, 1⟩

def mv2 : DupFile := ⟨"y/a.txt", 2, 1⟩

def mv2b : DupFile := ⟨"y/b.txt", 2, 1⟩

theorem C8_move_destination_witness :
    (move_duplicates [("h", [mvK, mv1, mv2])] "dups" KeepStrategy.first false
        ["k/a.txt", "x/a.txt", "y/a.txt"]).1.get? 1 =
      some ⟨"y/a.txt", "dups/a_1.txt", "moved"⟩ ∧
    (∃ f, (moversOf [("h", [mvK, mv1, mv2])] KeepStrategy.first).get? 1 = some f ∧
      (⟨"y/a.txt", "dups/a_1.txt", "moved"⟩ : MoveOp).source = f.path ∧
      (⟨"y/a.txt", "dups/a_1.txt", "moved"⟩ : MoveOp).destination ∉
        fsAfter "dups" ["k/a.txt", "x/a.txt", "y/a.txt"]
          ((moversOf [("h", [mvK, mv1, mv2])] KeepStrategy.first).take 1) ∧
      (∃ j, (⟨"y/a.txt", "dups/a_1.txt", "moved"⟩ : MoveOp).destination =
          destCandidate "dups" (basename f.path) j ∧
        ∀ i < j, destCandidate "dups" (basename f.path) i ∈
          fsAfter "dups" ["k/a.txt", "x/a.txt", "y/a.txt"]
            ((moversOf [("h", [mvK, mv1, mv2])] KeepStrategy.first).take 1)) ∧
      (destCandidate "dups" (basename f.path) 0 ∉
          fsAfter "dups" ["k/a.txt", "x/a.txt", "y/a.txt"]
            ((moversOf [("h", [mvK, mv1, mv2])] KeepStrategy.first).take 1) →
        (⟨"y/a.txt", "dups/a_1.txt", "moved"⟩ : MoveOp).destination =
          "dups" ++ "/" ++ basename f.path)) :=
  ⟨by decide,
    C8_move_destination [("h", [mvK, mv1, mv2])] "dups" KeepStrategy.first
      ["k/a.txt", "x/a.txt", "y/a.txt"] 1 ⟨"y/a.txt", "dups/a_1.txt", "moved"⟩ (by decide)⟩

theorem runMovers_dry_fs (targetDir : String) :
    ∀ (movers : List DupFile) (fs : List String),
      (runMovers true targetDir fs movers).2 = fs := by
  intro movers
  induction movers with
  | nil => intro fs; rfl
  | cons f rest ih =>
    intro fs
    simp only [runMovers]
    exact ih fs

theorem runMovers_dry_status (targetDir : String) :
    ∀ (movers : List DupFile) (fs : List String) (op : MoveOp),
      op ∈ (runMovers true targetDir fs movers).1 → op.status = "simulated" := by
  intro movers
  induction movers with
  | nil => intro fs op hop; simp [runMovers] at hop
  | cons f rest ih =>
    intro fs op hop
    simp only [runMovers] at hop
    rcases List.mem_cons.mp hop with rfl | hop
    · rfl
    · exact ih fs op hop

theorem cand0_inj (t : String) {n₁ n₂ : String}
    (h : destCandidate t n₁ 0 = destCandidate t n₂ 0) : n₁ = n₂ := by
  have hd := congrArg String.data h
  rw [destCandidate_zero_data, destCandidate_zero_data] at hd
  exact String.ext (List.append_cancel_left hd)

theorem runMovers_dry_dests (targetDir : String) :
    ∀ (movers : List DupFile) (fs : List String),
      (∀ f ∈ movers, destCandidate targetDir (basename f.path) 0 ∉ fs) →
      (runMovers true targetDir fs movers).1.map (fun o => o.destination) =
        movers.map (fun f => destCandidate targetDir (basename f.path) 0) := by
  intro movers
  induction movers with
  | nil => intro fs _; rfl
  | cons f rest ih =>
    intro fs hfree
    simp only [runMovers, List.map_cons]
    congr 1
    · show resolveDest fs targetDir (basename f.path) = _
      exact resolveDest_of_free fs targetDir (basename f.path)
        (hfree f (List.mem_cons_self _ _))
    · show (runMovers true targetDir fs rest).1.map (fun o => o.destination) = _
      exact ih fs (fun g hg => hfree g (List.mem_cons_of_mem _ hg))

theorem runMovers_real_dests (targetDir : String) :
    ∀ (movers : List DupFile) (fs : List String),
      (∀ f ∈ movers, destCandidate targetDir (basename f.path) 0 ∉ fs) →
      List.Pairwise (fun a b => basename a.path ≠ basename b.path) movers →
      (runMovers false targetDir fs movers).1.map (fun o => o.destination) =
        movers.map (fun f => destCandidate targetDir (basename f.path) 0) := by
  intro movers
  induction movers with
  | nil => intro fs _ _; rfl
  | cons f rest ih =>
    intro fs hfree hpw
    have hf0 : destCandidate targetDir (basename f.path) 0 ∉ fs :=
      hfree f (List.mem_cons_self _ _)
    have hdest : resolveDest fs targetDir (basename f.path) =
        destCandidate targetDir (basename f.path) 0 :=
      resolveDest_of_free fs targetDir (basename f.path) hf0
    rcases List.pairwise_cons.mp hpw with ⟨hhead, htail⟩
    have hfree' : ∀ g ∈ rest, destCandidate targetDir (basename g.path) 0 ∉
        (processMover false targetDir fs f).2 := by
      intro g hg hmem
      have hmem' : destCandidate targetDir (basename g.path) 0 ∈
          resolveDest fs targetDir (basename f.path) ::
            fs.filter (fun p => decide (p ≠ f.path)) := hmem
      rcases List.mem_cons.mp hmem' with heq | hmem2
      · rw [hdest] at heq
        exact hhead g hg (cand0_inj targetDir heq).symm
      · exact hfree g (List.mem_cons_of_mem _ hg) (List.mem_of_mem_filter hmem2)
    simp only [runMovers, List.map_cons]
    rw [show (processMover false targetDir fs f).1.destination =
        resolveDest fs targetDir (basename f.path) from rfl, hdest,
      ih (processMover false targetDir fs f).2 hfree' htail]

/-- C2 (amended): in dry-run mode no filesystem mutation occurs and every
emitted operation has status simulated, unconditionally; and the planned
destination sequence of a dry run equals that of a real run from the same
starting state whenever the non-survivors' base names are pairwise
distinct and none of their target-joined names already exists — in general
the dry run checks collisions only against the starting state while a real
run also sees its own earlier moves, so the plans can diverge (see the
counterexample). -/
theorem C2_dry_run_fidelity (duplicates : List (String × List DupFile))
    (targetDir : String) (strategy : KeepStrategy) (fs : List String) :
    (move_duplicates duplicates targetDir strategy true fs).2 = fs ∧
    (∀ op ∈ (move_duplicates duplicates targetDir strategy true fs).1,
      op.status = "simulated") ∧
    ((∀ f ∈ moversOf duplicates strategy,
        destCandidate targetDir (basename f.path) 0 ∉ fs) →
      List.Pairwise (fun a b => basename a.path ≠ basename b.path)
        (moversOf duplicates strategy) →
      (move_duplicates duplicates targetDir strategy true fs).1.map
          (fun o => o.destination) =
        (move_duplicates duplicates targetDir strategy false fs).1.map
          (fun o => o.destination)) := by
  refine ⟨runMovers_dry_fs targetDir _ fs, fun op hop =>
    runMovers_dry_status targetDir _ fs op hop, fun hfree hdistinct => ?_⟩
  rw [show (move_duplicates duplicates targetDir strategy true fs).1 =
      (runMovers true targetDir fs (moversOf duplicates strategy)).1 from rfl]
  rw [runMovers_dry_dests targetDir _ fs hfree]
  rw [show (move_duplicates duplicates targetDir strategy false fs).1 =
      (runMovers false targetDir fs (moversOf duplicates strategy)).1 from rfl]
  rw [runMovers_real_dests targetDir _ fs hfree hdistinct]

theorem C2_dry_run_fidelity_witness :
    (∀ f ∈ moversOf [("h", [mvK, mv1, mv2b])] KeepStrategy.first,
      destCandidate "dups" (basename f.path) 0 ∉ ["k/a.txt", "x/a.txt", "y/b.txt"]) ∧
    List.Pairwise (fun a b => basename a.path ≠ basename b.path)
      (moversOf [("h", [mvK, mv1, mv2b])] KeepStrategy.first) ∧
    (move_duplicates [("h", [mvK, mv1, mv2b])] "dups" KeepStrategy.first true
      ["k/a.txt", "x/a.txt", "y/b.txt"]).2 = ["k/a.txt", "x/a.txt", "y/b.txt"] ∧
    (∀ op ∈ (move_duplicates [("h", [mvK, mv1, mv2b])] "dups" KeepStrategy.first true
      ["k/a.txt", "x/a.txt", "y/b.txt"]).1, op.status = "simulated") ∧
    (move_duplicates [("h", [mvK, mv1, mv2b])] "dups" KeepStrategy.first true
        ["k/a.txt", "x/a.txt", "y/b.txt"]).1.map (fun o => o.destination) =
      (move_duplicates [("h", [mvK, mv1, mv2b])] "dups" KeepStrategy.first false
        ["k/a.txt", "x/a.txt", "y/b.txt"]).1.map (fun o => o.destination) :=
  ⟨by decide, by decide,
    (C2_dry_run_fidelity [("h", [mvK, mv1, mv2b])] "dups" KeepStrategy.first
      ["k/a.txt", "x/a.txt", "y/b.txt"]).1,
    (C2_dry_run_fidelity [("h", [mvK, mv1, mv2b])] "dups" KeepStrategy.first
      ["k/a.txt", "x/a.txt", "y/b.txt"]).2.1,
    (C2_dry_run_fidelity [("h", [mvK, mv1, mv2b])] "dups" KeepStrategy.first
      ["k/a.txt", "x/a.txt", "y/b.txt"]).2.2 (by decide) (by decide)⟩

/-- C2 counterexample: two non-survivors sharing the base name a.txt.  From
the same starting state the dry run plans dups/a.txt twice (its collision
checks only consult the untouched starting filesystem), while the real run
plans dups/a.txt then dups/a_1.txt, so the planned destination sets
differ. -/
theorem C2_counterexample :
    (move_duplicates [("h", [mvK, mv1, mv2])] "dups" KeepStrategy.first true
        ["k/a.txt", "x/a.txt", "y/a.txt"]).1.map (fun o => o.destination) ≠
      (move_duplicates [("h", [mvK, mv1, mv2])] "dups" KeepStrategy.first false
        ["k/a.txt", "x/a.txt", "y/a.txt"]).1.map (fun o => o.destination) ∧
    "dups/a_1.txt" ∈ (move_duplicates [("h", [mvK, mv1, mv2])] "dups"
        KeepStrategy.first false ["k/a.txt", "x/a.txt", "y/a.txt"]).1.map
          (fun o => o.destination) ∧
    "dups/a_1.txt" ∉ (move_duplicates [("h", [mvK, mv1, mv2])] "dups"
        KeepStrategy.first true ["k/a.txt", "x/a.txt", "y/a.txt"]).1.map
          (fun o => o.destination) := by
  refine ⟨?_, ?_, ?_⟩ <;> decide

/-! ### Operation log and undo (operation_log.py)

The filesystem is an association list from path to a content identity; the
log is a list of operation records.  `shutil.move` and `unlink` are
modelled as total (the I/O-failure branches are out of scope).  The Python
functions print a descriptive message and return a boolean; the branch
taken is modelled as an explicit result value.
-/

inductive OpType
  | move
  | copy
  | delete
deriving DecidableEq

structure Operation where
  id : Nat
  type : OpType
  source : String
  destination : Option String
  can_undo : Option Bool
  undone : Bool
deriving DecidableEq

abbrev FS := List (String × Nat)

def fsLookup (fs : FS) (p : String) : Option Nat :=
  (fs.find? (fun e => decide (e.1 = p))).map (fun e => e.2)

def fsHas (fs : FS) (p : String) : Bool := (fsLookup fs p).isSome

def fsRemove (fs : FS) (p : String) : FS :=
  fs.filter (fun e => decide (e.1 ≠ p))

/-- `shutil.move src dst`: the content stored at src reappears at dst. -/
def fsMove (fs : FS) (src dst : String) : FS :=
  match fsLookup fs src with
  | none => fs
  | some c => (dst, c) :: fsRemove fs src

/-- operation_log.py `log_move`: id is one beyond the current length, no
can_undo key (the reader defaults it to True), undone False. -/
def log_move (source destination : String) (log : List Operation) : List Operation :=
  log ++ [⟨log.length + 1, .move, source, some destination, none, false⟩]

def log_copy (source destination : String) (log : List Operation) : List Operation :=
  log ++ [⟨log.length + 1, .copy, source, some destination, none, false⟩]

/-- operation_log.py `log_delete`: records can_undo = False. -/
def log_delete (file_path : String) (log : List Operation) : List Operation :=
  log ++ [⟨log.length + 1, .delete, file_path, none, some false, false⟩]

/-- The branch taken by `undo_operation` (the Python prints a message per
branch and returns a boolean; ok is the True outcome). -/
inductive UndoResult
  | ok
  | notFound
  | alreadyUndone
  | cannotUndo
  | destMissing
  | sourceExists
  | malformed
  | unknownType
deriving DecidableEq

/-- On success the operation record is mutated in place: undone := True. -/
def markUndone (opId : Nat) (log : List Operation) : List Operation :=
  log.map (fun o => if o.id = opId then { o with undone := true } else o)

/-- operation_log.py `undo_operation` with `_undo_move` and `_undo_copy`
inlined: look up by id; fail if absent, already undone, or non-undoable;
a move is reversed only when the recorded destination exists and the
recorded source does not; undoing a copy deletes the copy, and a copy
whose destination is already gone still counts as success. -/
def undo_operation (opId : Nat) (log : List Operation) (fs : FS) :
    UndoResult × List Operation × FS :=
  match log.find? (fun o => decide (o.id = opId)) with
  | none => (.notFound, log, fs)
  | some op =>
    if op.undone then (.alreadyUndone, log, fs)
    else if op.can_undo.getD true = false then (.cannotUndo, log, fs)
    else
      match op.type with
      | .move =>
        match op.destination with
        | none => (.malformed, log, fs)
        | some dst =>
          if fsHas fs dst = false then (.destMissing, log, fs)
          else if fsHas fs op.source then (.sourceExists, log, fs)
          else (.ok, markUndone opId log, fsMove fs dst op.source)
      | .copy =>
        match op.destination with
        | none => (.malformed, log, fs)
        | some dst =>
          if fsHas fs dst = false then (.ok, markUndone opId log, fs)
          else (.ok, markUndone opId log, fsRemove fs dst)
      | .delete => (.unknownType, log, fs)

theorem fsLookup_remove_self (fs : FS) (p : String) :
    fsLookup (fsRemove fs p) p = none := by
  induction fs with
  | nil => rfl
  | cons e rest ih =>
    by_cases h : e.1 = p
    · show fsLookup ((e :: rest).filter (fun e => decide (e.1 ≠ p))) p = none
      rw [List.filter_cons]
      have : (decide (e.1 ≠ p)) = false := by simp [h]
      rw [this, if_neg (by simp : ¬(false = true))]
      exact ih
    · show fsLookup ((e :: rest).filter (fun e => decide (e.1 ≠ p))) p = none
      rw [List.filter_cons]
      have hd : (decide (e.1 ≠ p)) = true := by simp [h]
      rw [hd]
      simp only [if_true]
      show ((e :: fsRemove rest p).find? (fun x => decide (x.1 = p))).map _ = none
      rw [List.find?_cons_of_neg _ (by simpa using h)]
      exact ih

theorem find?_markUndone (opId : Nat) (log : List Operation) :
    (markUndone opId log).find? (fun o => decide (o.id = opId)) =
      (log.find? (fun o => decide (o.id = opId))).map
        (fun o => { o with undone := true }) := by
  induction log with
  | nil => rfl
  | cons o rest ih =>
    show ((if o.id = opId then { o with undone := true } else o) ::
        markUndone opId rest).find? (fun o => decide (o.id = opId)) = _
    by_cases h : o.id = opId
    · rw [if_pos h]
      rw [List.find?_cons_of_pos _ (by simp [h]), List.find?_cons_of_pos _ (by simp [h])]
      rfl
    · rw [if_neg h]
      rw [List.find?_cons_of_neg _ (by simp [h]), List.find?_cons_of_neg _ (by simp [h])]
      exact ih

theorem find?_append_singleton (log : List Operation) (x : Operation)
    (p : Operation → Bool) (h : ∀ o ∈ log, p o = false) :
    (log ++ [x]).find? p = if p x then some x else none := by
  induction log with
  | nil =>
    show List.find? p [x] = _
    by_cases hx : p x = true
    · rw [List.find?_cons_of_pos _ hx, if_pos hx]
    · rw [List.find?_cons_of_neg _ hx, if_neg hx]
      rfl
  | cons o rest ih =>
    show ((o :: (rest ++ [x])).find? p) = _
    rw [List.find?_cons_of_neg _ (by simp [h o (List.mem_cons_self _ _)])]
    exact ih (fun o' ho' => h o' (List.mem_cons_of_mem _ ho'))

theorem fsHas_remove_self (fs : FS) (p : String) :
    fsHas (fsRemove fs p) p = false := by
  unfold fsHas
  rw [fsLookup_remove_self]
  rfl

theorem undo_operation_move_red (log : List Operation) (fs : FS) (opId : Nat)
    (op : Operation) (dst : String)
    (hfind : log.find? (fun o => decide (o.id = opId)) = some op)
    (htype : op.type = .move)
    (hdst : op.destination = some dst)
    (hundone : op.undone = false)
    (hcan : op.can_undo.getD true = true) :
    undo_operation opId log fs =
      if fsHas fs dst = false then (.destMissing, log, fs)
      else if fsHas fs op.source then (.sourceExists, log, fs)
      else (.ok, markUndone opId log, fsMove fs dst op.source) := by
  unfold undo_operation
  rw [hfind]
  dsimp only
  rw [hundone, if_neg (by simp : ¬(false = true)), hcan,
    if_neg (by simp : ¬(true = false)), htype]
  dsimp only
  rw [hdst]

theorem undo_operation_copy_red (log : List Operation) (fs : FS) (opId : Nat)
    (op : Operation) (dst : String)
    (hfind : log.find? (fun o => decide (o.id = opId)) = some op)
    (htype : op.type = .copy)
    (hdst : op.destination = some dst)
    (hundone : op.undone = false)
    (hcan : op.can_undo.getD true = true) :
    undo_operation opId log fs =
      if fsHas fs dst = false then (.ok, markUndone opId log, fs)
      else (.ok, markUndone opId log, fsRemove fs dst) := by
  unfold undo_operation
  rw [hfind]
  dsimp only
  rw [hundone, if_neg (by simp : ¬(false = true)), hcan,
    if_neg (by simp : ¬(true = false)), htype]
  dsimp only
  rw [hdst]

/-- C5: for a logged move operation that is found, not yet undone and
undoable, undo succeeds precisely when the recorded destination exists and
the recorded source does not; on success the moved content is back at the
source path, the destination no longer exists, the operation is marked
undone, and a second undo attempt reports already-undone; on a failed
precondition the undo reports the reason and leaves the log and
filesystem unchanged. -/
theorem C5_undo_move (log : List Operation) (fs : FS) (opId : Nat)
    (op : Operation) (dst : String)
    (hfind : log.find? (fun o => decide (o.id = opId)) = some op)
    (htype : op.type = .move)
    (hdst : op.destination = some dst)
    (hundone : op.undone = false)
    (hcan : op.can_undo.getD true = true) :
    ((undo_operation opId log fs).1 = .ok ↔
      fsHas fs dst = true ∧ fsHas fs op.source = false) ∧
    (fsHas fs dst = true → fsHas fs op.source = false →
      (undo_operation opId log fs).1 = .ok ∧
      fsLookup (undo_operation opId log fs).2.2 op.source = fsLookup fs dst ∧
      fsHas (undo_operation opId log fs).2.2 dst = false ∧
      (undo_operation opId log fs).2.1.find? (fun o => decide (o.id = opId)) =
        some { op with undone := true } ∧
      (undo_operation opId
        (undo_operation opId log fs).2.1 (undo_operation opId log fs).2.2).1 =
          .alreadyUndone) ∧
    (fsHas fs dst = false →
      undo_operation opId log fs = (.destMissing, log, fs)) ∧
    (fsHas fs dst = true → fsHas fs op.source = true →
      undo_operation opId log fs = (.sourceExists, log, fs)) := by
  have hred := undo_operation_move_red log fs opId op dst hfind htype hdst hundone hcan
  refine ⟨?_, ?_, ?_, ?_⟩
  · constructor
    · intro hok
      by_cases h1 : fsHas fs dst = false
      · rw [hred, if_pos h1] at hok
        exact absurd hok (by simp)
      · by_cases h2 : fsHas fs op.source = true
        · rw [hred, if_neg h1, if_pos h2] at hok
          exact absurd hok (by simp)
        · exact ⟨by simpa using h1, by simpa using h2⟩
    · rintro ⟨h1, h2⟩
      rw [hred, if_neg (by simp [h1]), if_neg (by simp [h2])]
  · intro h1 h2
    have hstep : undo_operation opId log fs =
        (.ok, markUndone opId log, fsMove fs dst op.source) := by
      rw [hred, if_neg (by simp [h1]), if_neg (by simp [h2])]
    have hne : op.source ≠ dst := by
      intro he
      rw [he] at h2
      rw [h2] at h1
      exact absurd h1 (by simp)
    refine ⟨by rw [hstep], ?_, ?_, ?_, ?_⟩
    · rw [hstep]
      unfold fsMove
      cases hc : fsLookup fs dst with
      | none =>
        unfold fsHas at h1
        rw [hc] at h1
        exact absurd h1 (by simp)
      | some c =>
        show fsLookup ((op.source, c) :: fsRemove fs dst) op.source = _
        unfold fsLookup
        rw [List.find?_cons_of_pos _ (by simp)]
        rfl
    · rw [hstep]
      unfold fsMove
      cases hc : fsLookup fs dst with
      | none =>
        unfold fsHas at h1
        rw [hc] at h1
        exact absurd h1 (by simp)
      | some c =>
        show fsHas ((op.source, c) :: fsRemove fs dst) dst = false
        unfold fsHas fsLookup
        rw [List.find?_cons_of_neg _ (by simp [hne])]
        exact fsHas_remove_self fs dst
    · rw [hstep]
      show (markUndone opId log).find? (fun o => decide (o.id = opId)) = _
      rw [find?_markUndone, hfind]
      rfl
    · rw [hstep]
      show (undo_operation opId (markUndone opId log) (fsMove fs dst op.source)).1 =
        UndoResult.alreadyUndone
      unfold undo_operation
      rw [find?_markUndone, hfind]
      simp only [Option.map_some']
      rfl
  · intro h1
    rw [hred, if_pos h1]
  · intro h1 h2
    rw [hred, if_neg (by simp [h1]), if_pos h2]

def mlog : List Operation := log_move "a" "b" []

def mop : Operation := ⟨1, OpType.move, "a", some "b", none, false⟩

def mfs : FS := [("b", 7)]

theorem C5_undo_move_witness :
    mlog.find? (fun o => decide (o.id = 1)) = some mop ∧
    mop.type = OpType.move ∧ mop.destination = some "b" ∧
    mop.undone = false ∧ mop.can_undo.getD true = true ∧
    (((undo_operation 1 mlog mfs).1 = .ok ↔
        fsHas mfs "b" = true ∧ fsHas mfs mop.source = false) ∧
      (fsHas mfs "b" = true → fsHas mfs mop.source = false →
        (undo_operation 1 mlog mfs).1 = .ok ∧
        fsLookup (undo_operation 1 mlog mfs).2.2 mop.source = fsLookup mfs "b" ∧
        fsHas (undo_operation 1 mlog mfs).2.2 "b" = false ∧
        (undo_operation 1 mlog mfs).2.1.find? (fun o => decide (o.id = 1)) =
          some { mop with undone := true } ∧
        (undo_operation 1
          (undo_operation 1 mlog mfs).2.1 (undo_operation 1 mlog mfs).2.2).1 =
            .alreadyUndone) ∧
      (fsHas mfs "b" = false →
        undo_operation 1 mlog mfs = (.destMissing, mlog, mfs)) ∧
      (fsHas mfs "b" = true → fsHas mfs mop.source = true →
        undo_operation 1 mlog mfs = (.sourceExists, mlog, mfs))) :=
  ⟨rfl, rfl, rfl, rfl, rfl, C5_undo_move mlog mfs 1 mop "b" rfl rfl rfl rfl rfl⟩

/-- C6: `log_delete` records the operation with can_undo = False, and an
undo request for it fails with the cannot-undo signal, leaving both the
log (including the undone flag) and the filesystem unchanged. -/
theorem C6_delete_not_undoable (log : List Operation) (path : String) (fs : FS)
    (hids : ∀ o ∈ log, o.id ≠ log.length + 1) :
    (log_delete path log).find? (fun o => decide (o.id = log.length + 1)) =
      some ⟨log.length + 1, .delete, path, none, some false, false⟩ ∧
    (⟨log.length + 1, .delete, path, none, some false, false⟩ : Operation).can_undo =
      some false ∧
    undo_operation (log.length + 1) (log_delete path log) fs =
      (.cannotUndo, log_delete path log, fs) := by
  have hfind : (log_delete path log).find? (fun o => decide (o.id = log.length + 1)) =
      some ⟨log.length + 1, .delete, path, none, some false, false⟩ := by
    unfold log_delete
    rw [find?_append_singleton _ _ _ (fun o ho => by simpa using hids o ho)]
    rw [if_pos (by simp)]
  refine ⟨hfind, rfl, ?_⟩
  unfold undo_operation
  rw [hfind]
  rfl

theorem C6_delete_not_undoable_witness :
    (∀ o ∈ ([] : List Operation), o.id ≠ 1) ∧
    ((log_delete "f" []).find? (fun o => decide (o.id = 1)) =
        some ⟨1, .delete, "f", none, some false, false⟩ ∧
      (⟨1, .delete, "f", none, some false, false⟩ : Operation).can_undo = some false ∧
      undo_operation 1 (log_delete "f" []) [("x", 1)] =
        (.cannotUndo, log_delete "f" [], [("x", 1)])) :=
  ⟨by simp, C6_delete_not_undoable [] "f" [("x", 1)] (by simp)⟩

/-- C10: undoing a logged copy whose recorded destination no longer exists
succeeds (treated as already removed): it reports ok, leaves the
filesystem unchanged, and the operation is marked undone. -/
theorem C10_undo_copy_missing (log : List Operation) (fs : FS) (opId : Nat)
    (op : Operation) (dst : String)
    (hfind : log.find? (fun o => decide (o.id = opId)) = some op)
    (htype : op.type = .copy)
    (hdst : op.destination = some dst)
    (hundone : op.undone = false)
    (hcan : op.can_undo.getD true = true)
    (hmissing : fsHas fs dst = false) :
    (undo_operation opId log fs).1 = .ok ∧
    (undo_operation opId log fs).2.2 = fs ∧
    (undo_operation opId log fs).2.1.find? (fun o => decide (o.id = opId)) =
      some { op with undone := true } := by
  have hred := undo_operation_copy_red log fs opId op dst hfind htype hdst hundone hcan
  have hstep : undo_operation opId log fs = (.ok, markUndone opId log, fs) := by
    rw [hred, if_pos hmissing]
  refine ⟨by rw [hstep], by rw [hstep], ?_⟩
  rw [hstep]
  show (markUndone opId log).find? (fun o => decide (o.id = opId)) = _
  rw [find?_markUndone, hfind]
  rfl

def clog : List Operation := log_copy "a" "b" []

def cop : Operation := ⟨1, OpType.copy, "a", some "b", none, false⟩

def cfs : FS := [("a", 5)]

theorem C10_undo_copy_missing_witness :
    clog.find? (fun o => decide (o.id = 1)) = some cop ∧
    cop.type = OpType.copy ∧ cop.destination = some "b" ∧
    cop.undone = false ∧ cop.can_undo.getD true = true ∧
    fsHas cfs "b" = false ∧
    ((undo_operation 1 clog cfs).1 = .ok ∧
      (undo_operation 1 clog cfs).2.2 = cfs ∧
      (undo_operation 1 clog cfs).2.1.find? (fun o => decide (o.id = 1)) =
        some { cop with undone := true }) :=
  ⟨rfl, rfl, rfl, rfl, rfl, rfl,
    C10_undo_copy_missing clog cfs 1 cop "b" rfl rfl rfl rfl rfl rfl⟩

end FileOrg
